import Mathlib

/-
Verification of the adaptive query execution and recursive decomposition
engine of msiempy (src/msiempy/event.py).

The embedding models:
  - the window divider divide_times (msiempy/core/utils.py, modelled from the
    spec because that file is not among the sources),
  - the polling loop _QueryExecuteManager._wait_for,
  - the submit/poll/fetch/close retry driver EventManager._qry_load_data,
  - the recursive decomposition orchestrator EventManager.load_data.

Instants are rationals (timestamps at sub-second resolution). Remote
interactions are abstracted by oracles: a function giving the outcome of each
query attempt, and a function giving the completion status of each poll.
-/

set_option autoImplicit false
set_option maxRecDepth 4000

namespace Msiempy

/-- Errors raised by the query execution helpers: NitroError covers every
remote-service error surfaced by nitro.request (identified here by a numeric
code), and timeout is the TimeoutError raised by the waiting loop when the
wait budget elapses. The two are distinct conditions. -/
inductive QueryError where
  | nitro (code : Nat)
  | timeout
  deriving DecidableEq

/-- A parsed result row: an ordered mapping from field name to value, as
produced by parse_query_result from the columns and rows of a query result. -/
abbrev Row := List (String × String)

/-- The time window of a query: either a concrete custom window given by two
instants (time_range CUSTOM with start_time and end_time), or a named
relative range resolved externally (timerange_gettimes). -/
inductive QTimeRange where
  | custom (start_time end_time : ℚ)
  | named (name : String)
  deriving DecidableEq

/-- A filter tree node, mirroring FieldFilter (a leaf predicate with a field
name, an operator and a list of values) and GroupFilter (a logic connective
over a list of child filters). -/
inductive FilterNode where
  | leaf (field operator : String) (values : List String)
  | group (logic : String) (children : List FilterNode)

/-- The declarative description of one event query, mirroring the attributes
of EventManager that load_data reads: projected fields, order (direction and
field), result cap limit, the filter list, the time window, and whether the
query has a parent (the _parent attribute is None exactly on the root). -/
structure EventQuerySpec where
  fields : List String
  order : String × String
  limit : Nat
  filters : List FilterNode
  time_range : QTimeRange
  hasParent : Bool

/-- Error raised by the window divider on malformed arguments. -/
inductive DivideError where
  | invalidArgument
  deriving DecidableEq

/-- Ordered list of n contiguous sub-intervals read off a boundary function g:
starting at boundary index i, the j-th returned sub-interval is
[g (i+j), g (i+j+1)). Both division modes of divide_times produce their
output through this shape. -/
def windowsFrom (g : Nat → ℚ) : Nat → Nat → List (ℚ × ℚ)
  | _, 0 => []
  | i, n + 1 => (g i, g (i + 1)) :: windowsFrom g (i + 1) n

/-- Modelled from the spec: divide_times lives in msiempy/core/utils.py, which
is not among the given sources (only its call site in event.py is, lines
424-429). Slots mode of section 4.1: given an interval [start, end) and an
explicit sub-interval count slots, return slots contiguous sub-intervals of
equal length covering [start, end) left to right; fail with an
InvalidArgument condition when start is not before end or slots < 1. -/
def divide_times_slots (start_t end_t : ℚ) (slots : Nat) :
    Except DivideError (List (ℚ × ℚ)) :=
  if end_t ≤ start_t then .error .invalidArgument
  else if slots < 1 then .error .invalidArgument
  else .ok (windowsFrom (fun i => start_t + i * ((end_t - start_t) / slots)) 0 slots)

/-- Modelled from the spec: delta mode of divide_times (msiempy/core/utils.py,
not among the given sources). Given [start, end) and a fixed duration delta,
return contiguous sub-intervals of length delta except possibly the last,
which is truncated to end; fail with an InvalidArgument condition when start
is not before end or delta is not positive. -/
def divide_times_delta (start_t end_t delta : ℚ) :
    Except DivideError (List (ℚ × ℚ)) :=
  if end_t ≤ start_t then .error .invalidArgument
  else if delta ≤ 0 then .error .invalidArgument
  else .ok (windowsFrom (fun i => min (start_t + i * delta) end_t) 0
      ⌈(end_t - start_t) / delta⌉₊)

/-- Number of status polls the waiting loop of wait_for performs before the
wait budget elapses. The loop re-reads the clock before each poll and sleeps
sleep_time after each incomplete poll, so poll number j (j = 0, 1, ...)
happens while j * sleep_time < wait_timeout_sec; for a positive sleep_time
that is exactly j < ceiling (wait_timeout_sec / sleep_time). -/
def numPolls (wait_timeout_sec sleep_time : ℚ) : Nat :=
  ⌈wait_timeout_sec / sleep_time⌉₊

/-- The waiting loop of _QueryExecuteManager._wait_for (event.py lines
100-117), polling from poll index j with the given number of polls left in
the budget: ask the service for the completion status of the result; when it
reports complete, return True; otherwise sleep and continue with the next
poll; when the budget is exhausted, raise TimeoutError. The remote
query_status requests are abstracted by status, giving the completion flag
returned by each poll. -/
def wait_for_go (status : Nat → Bool) : Nat → Nat → Except QueryError Bool
  | _, 0 => .error .timeout
  | j, fuel + 1 => if status j = true then .ok true else wait_for_go status (j + 1) fuel

/-- Models _QueryExecuteManager._wait_for: poll the completion status at a
fixed sleep interval (default 200 ms, the sleep_time = 0.2 argument) until
the service reports completion or the wait budget wait_timeout_sec elapses. -/
def wait_for (status : Nat → Bool) (wait_timeout_sec : ℚ)
    (sleep_time : ℚ := 1/5) : Except QueryError Bool :=
  wait_for_go status 0 (numPolls wait_timeout_sec sleep_time)

/-- One observable action of _qry_load_data: a full query attempt (submit,
wait, fetch, close), recorded with its attempt index and the wait timeout in
seconds passed to wait_for on that attempt, or a sleep of a number of
seconds before a retry. -/
inductive QryAction where
  | attempt (idx : Nat) (wait_timeout_sec : ℚ)
  | sleepSec (seconds : Nat)
  deriving DecidableEq

/-- Models EventManager._qry_load_data (event.py lines 322-386). One attempt
is the submit, wait_for, fetch and close sequence; its remote interaction is
abstracted by the oracle att: att idx w is the outcome of attempt number idx
run with wait timeout w, either the fetched rows or the NitroError or
TimeoutError it raises. On success the method returns (rows, completed) with
completed true exactly when fewer than limit rows came back (line 386). On a
failure with a positive retry budget it sleeps one second and re-runs the
whole sequence with the budget decremented by one; the recursive call on line
382 passes only retry, so the retried attempt uses the default
wait_timeout_sec of 120. With an exhausted budget the failure is re-raised
unchanged. The returned trace lists the attempts made, each with the wait
timeout it used, and the sleeps between them. -/
def qry_load_data_go (att : Nat → ℚ → Except QueryError (List Row)) (limit : Nat) :
    Nat → Nat → ℚ → List QryAction × Except QueryError (List Row × Bool)
  | idx, 0, w =>
    match att idx w with
    | .ok rows => ([.attempt idx w], .ok (rows, decide (rows.length < limit)))
    | .error e => ([.attempt idx w], .error e)
  | idx, r + 1, w =>
    match att idx w with
    | .ok rows => ([.attempt idx w], .ok (rows, decide (rows.length < limit)))
    | .error _ =>
      let rest := qry_load_data_go att limit (idx + 1) r 120
      (.attempt idx w :: .sleepSec 1 :: rest.1, rest.2)

/-- EventManager._qry_load_data starting at attempt index 0, with its default
arguments retry = 1 and wait_timeout_sec = 120. -/
def qry_load_data (att : Nat → ℚ → Except QueryError (List Row)) (limit : Nat)
    (retry : Nat := 1) (wait_timeout_sec : ℚ := 120) :
    List QryAction × Except QueryError (List Row × Bool) :=
  qry_load_data_go att limit 0 retry wait_timeout_sec

/-- Number of query attempts recorded in a trace. -/
def attemptCount : List QryAction → Nat
  | [] => 0
  | .attempt _ _ :: rest => attemptCount rest + 1
  | .sleepSec _ :: rest => attemptCount rest

/-- The result of one load_data run in the model: the rows loaded into the
list (items), the value of the root not_completed flag after the run, the
number of incomplete-query warnings emitted during the run, and the time
windows queried, in execution order. -/
structure LoadResult where
  items : List Row
  flag : Bool
  warnings : Nat
  executed : List QTimeRange

/-- Accumulator for the sequential processing of the child sub-queries: the
per-child item lists in child order, the root not_completed flag after the
children ran, the warnings they emitted, and the windows they queried. -/
structure ChildrenAcc where
  resultsLists : List (List Row)
  flag : Bool
  warnings : Nat
  executed : List QTimeRange

/-- The sub-query constructor call of load_data (event.py lines 444-453): one
child EventManager per sub-window, built with the fields, order, limit and
filters of the parent, time_range CUSTOM with the concrete bounds of the
sub-window, and _parent set to the parent. The child constructor
re-normalizes the field list (defaults added, nicknames resolved,
duplicates removed); on the already-normalized field list of the parent this
is the identity on the field set, so it is modelled as inheritance. -/
def buildSubQuery (q : EventQuerySpec) (w : ℚ × ℚ) : EventQuerySpec :=
  { fields := q.fields
    order := q.order
    limit := q.limit
    filters := q.filters
    time_range := .custom w.1 w.2
    hasParent := true }

/-- Resolution of the query window to concrete instants (event.py lines
417-422): a non-CUSTOM time range is resolved through timerange_gettimes
(abstracted by the resolve oracle, since msiempy/core/utils.py is not among
the sources); a CUSTOM range already carries start_time and end_time. -/
def resolvedWindow (resolve : String → ℚ × ℚ) (q : EventQuerySpec) : ℚ × ℚ :=
  match q.time_range with
  | .custom s e => (s, e)
  | .named n => resolve n

/-- The division dispatch of load_data (event.py lines 424-429): when the
query is the first query (no parent) and delta is a string (modelled as some
parsed duration), cut the range by delta; otherwise divide it into slots
sub-windows. -/
def chooseDivision (hasParent : Bool) (delta : Option ℚ) (s e : ℚ) (slots : Nat) :
    Except DivideError (List (ℚ × ℚ)) :=
  match hasParent, delta with
  | false, some dq => divide_times_delta s e dq
  | _, _ => divide_times_slots s e slots

/-- Sequential processing of the child sub-queries (the perform call of
event.py lines 457-470, sequentialized): each child runs f on its
specification with the current root not_completed flag, the per-child item
lists are collected in child order, and a division error raised inside a
child propagates. The worker pool only affects scheduling, not which child
results are collected or their order. -/
def load_data_children (f : EventQuerySpec → Bool → Except DivideError LoadResult) :
    List EventQuerySpec → Bool → Except DivideError ChildrenAcc
  | [], flag => .ok ⟨[], flag, 0, []⟩
  | sq :: rest, flag =>
    match f sq flag with
    | .error e => .error e
    | .ok r =>
      match load_data_children f rest r.flag with
      | .error e => .error e
      | .ok acc =>
        .ok ⟨r.items :: acc.resultsLists, acc.flag, r.warnings + acc.warnings,
          r.executed ++ acc.executed⟩

/-- Merging step of load_data (event.py lines 472-473): the flattening of the
per-child result lists, in child order, becomes the items of the node; the
trace starts with the window of the node itself, queried before splitting. -/
def finalizeNode (own : QTimeRange) (acc : ChildrenAcc) : LoadResult :=
  ⟨acc.resultsLists.flatten, acc.flag, acc.warnings, own :: acc.executed⟩

/-- The split branch of load_data: divide the resolved window, build one
sub-query per sub-window, run the children, and merge. An InvalidArgument
raised by the divider propagates, as does an error from a child. -/
def splitStep (f : EventQuerySpec → Bool → Except DivideError LoadResult)
    (q : EventQuerySpec) (flag : Bool) :
    Except DivideError (List (ℚ × ℚ)) → Except DivideError LoadResult
  | .error e => .error e
  | .ok times =>
    match load_data_children f (times.map (buildSubQuery q)) flag with
    | .error e => .error e
    | .ok acc => .ok (finalizeNode q.time_range acc)

/-- Models EventManager.load_data (event.py lines 388-484) on the success
path of _qry_load_data: the rows an attempt fetches for a window are given by
the oracle server, and completion is rows < limit (line 409). A completed
query returns its rows as is. A truncated query with exhausted depth budget
returns its rows and, when the not_completed flag of the root query is still
unset, emits one warning and sets the flag (lines 475-481); the flag of the
root is threaded through explicitly, following the root-walk of
_root_parent. A truncated query with remaining budget resolves its window,
divides it (by delta only when it is the first query and a delta was given),
builds one sub-query per sub-window inheriting fields, order, limit and
filters, runs them on max_query_depth - 1 — the recursive dispatch of line
468 passes only slots and the decremented depth, so children see no delta —
and flattens their results in window order (lines 414-473). -/
def load_data (server : QTimeRange → List Row) (resolve : String → ℚ × ℚ)
    (slots : Nat) :
    Nat → EventQuerySpec → Option ℚ → Bool → Except DivideError LoadResult
  | 0, q, _, flag =>
    let items := server q.time_range
    if items.length < q.limit then .ok ⟨items, flag, 0, [q.time_range]⟩
    else if flag then .ok ⟨items, flag, 0, [q.time_range]⟩
    else .ok ⟨items, true, 1, [q.time_range]⟩
  | depth + 1, q, delta, flag =>
    let items := server q.time_range
    if items.length < q.limit then .ok ⟨items, flag, 0, [q.time_range]⟩
    else
      let se := resolvedWindow resolve q
      splitStep (fun sq fl => load_data server resolve slots depth sq none fl) q flag
        (chooseDivision q.hasParent delta se.1 se.2 slots)
  termination_by structural depth => depth

/-- Modelled from the spec: the worker pool (the perform dispatcher of
msiempy/core, not among the sources) runs the jobs it is given on at most
workers concurrent workers when asynch is true, and runs them in the calling
context when asynch is false; load_data passes asynch = (_parent == None)
(event.py line 461). maxInFlight follows the run structure of load_data and
gives the largest number of query attempts in flight at one instant: a node
first runs its own attempt alone; when it splits, the root runs its children
on min workers (number of children) concurrent workers, each child subtree
running sequentially inside its worker, while a non-root node runs its
children one after the other in its own context. -/
def maxInFlight (server : QTimeRange → List Row) (resolve : String → ℚ × ℚ)
    (slots workers : Nat) : Nat → EventQuerySpec → Option ℚ → Nat
  | 0, _, _ => 1
  | depth + 1, q, delta =>
    let items := server q.time_range
    if items.length < q.limit then 1
    else
      let se := resolvedWindow resolve q
      match chooseDivision q.hasParent delta se.1 se.2 slots with
      | .error _ => 1
      | .ok times =>
        let subs := times.map (buildSubQuery q)
        let per := (subs.map
          (fun sq => maxInFlight server resolve slots workers depth sq none)).foldr max 0
        if q.hasParent then max 1 per
        else max 1 (min workers subs.length * per)
  termination_by structural depth => depth

/-- Items of a load_data outcome; a propagated error loads nothing. -/
def loadItems (x : Except DivideError LoadResult) : List Row :=
  match x with
  | .ok r => r.items
  | .error _ => []

/-- A concrete root query specification used to instantiate theorems. -/
def sampleSpec : EventQuerySpec :=
  { fields := ["Rule.msg", "LastTime", "IPSIDAlertID"]
    order := ("DESCENDING", "LastTime")
    limit := 500
    filters := []
    time_range := .custom 0 100
    hasParent := false }

/-- A concrete root query specification with limit 1, so that one returned
row already truncates the query. -/
def rootSpec : EventQuerySpec :=
  { fields := ["Rule.msg", "LastTime", "IPSIDAlertID"]
    order := ("DESCENDING", "LastTime")
    limit := 1
    filters := []
    time_range := .custom 0 100
    hasParent := false }

/-- A server oracle returning no rows for every window. -/
def emptyServer : QTimeRange → List Row := fun _ => []

/-- A server oracle returning 500 rows for every window. -/
def fullServer : QTimeRange → List Row := fun _ => List.replicate 500 []

/-- A server oracle returning one row for every window. -/
def oneRowServer : QTimeRange → List Row := fun _ => [[]]

/-- A window resolver fixture. -/
def sampleResolve : String → ℚ × ℚ := fun _ => (0, 100)

/-- An attempt oracle that succeeds immediately with no rows. -/
def okAtt : Nat → ℚ → Except QueryError (List Row) := fun _ _ => .ok []

/-- An attempt oracle that fails every attempt with a remote-service error
carrying the attempt index. -/
def failAtt : Nat → ℚ → Except QueryError (List Row) := fun k _ => .error (.nitro k)

theorem windowsFrom_length (g : Nat → ℚ) (i n : Nat) :
    (windowsFrom g i n).length = n := by
  induction n generalizing i with
  | zero => rfl
  | succ n ih => simp [windowsFrom, ih]

theorem windowsFrom_getElem (g : Nat → ℚ) (i n j : Nat)
    (h : j < (windowsFrom g i n).length) :
    (windowsFrom g i n)[j] = (g (i + j), g (i + j + 1)) := by
  induction n generalizing i j with
  | zero => rw [windowsFrom_length] at h; exact absurd h (Nat.not_lt_zero j)
  | succ n ih =>
    cases j with
    | zero => simp [windowsFrom]
    | succ j =>
      have hj : j < (windowsFrom g (i + 1) n).length := by
        rw [windowsFrom_length]
        rw [windowsFrom_length] at h
        omega
      have e1 : i + 1 + j = i + (j + 1) := by omega
      have := ih (i + 1) j hj
      simp only [windowsFrom, List.getElem_cons_succ, this, e1]

theorem windowsFrom_mem (g : Nat → ℚ) (i n : Nat) (p : ℚ × ℚ) :
    p ∈ windowsFrom g i n ↔ ∃ j, j < n ∧ p = (g (i + j), g (i + j + 1)) := by
  rw [List.mem_iff_getElem]
  constructor
  · rintro ⟨j, hj, rfl⟩
    have hj2 : j < n := by rw [windowsFrom_length] at hj; exact hj
    exact ⟨j, hj2, windowsFrom_getElem g i n j hj⟩
  · rintro ⟨j, hj, rfl⟩
    have hj2 : j < (windowsFrom g i n).length := by rw [windowsFrom_length]; exact hj
    exact ⟨j, hj2, windowsFrom_getElem g i n j hj2⟩

theorem windows_g_mono (g : Nat → ℚ) (i n : Nat)
    (hg : ∀ j, i ≤ j → j < i + n → g j < g (j + 1)) (a b : Nat)
    (ha : i ≤ a) (hab : a ≤ b) : b ≤ i + n → g a ≤ g b := by
  induction b, hab using Nat.le_induction with
  | base => intro _; exact le_refl _
  | succ m hm ih =>
    intro hb
    exact le_trans (ih (by omega)) (le_of_lt (hg m (by omega) (by omega)))

theorem windowsFrom_nonempty_each (g : Nat → ℚ) (i n : Nat)
    (hg : ∀ j, i ≤ j → j < i + n → g j < g (j + 1)) :
    ∀ p ∈ windowsFrom g i n, p.1 < p.2 := by
  intro p hp
  rcases (windowsFrom_mem g i n p).mp hp with ⟨j, hj, rfl⟩
  exact hg (i + j) (by omega) (by omega)

theorem windowsFrom_pairwise (g : Nat → ℚ) (i n : Nat)
    (hg : ∀ j, i ≤ j → j < i + n → g j < g (j + 1)) :
    (windowsFrom g i n).Pairwise (fun p q => p.2 ≤ q.1) := by
  induction n generalizing i with
  | zero => exact List.Pairwise.nil
  | succ n ih =>
    refine List.Pairwise.cons ?_ (ih (i + 1) ?_)
    · intro q hq
      rcases (windowsFrom_mem g (i + 1) n q).mp hq with ⟨j, hj, rfl⟩
      exact windows_g_mono g i (n + 1) hg (i + 1) (i + 1 + j) (by omega) (by omega)
        (by omega)
    · intro j h1 h2
      exact hg j (by omega) (by omega)

theorem windowsFrom_adjacent (g : Nat → ℚ) (i n j : Nat)
    (h1 : j < (windowsFrom g i n).length) (h2 : j + 1 < (windowsFrom g i n).length) :
    ((windowsFrom g i n)[j]).2 = ((windowsFrom g i n)[j + 1]).1 := by
  rw [windowsFrom_getElem g i n j h1, windowsFrom_getElem g i n (j + 1) h2]
  have e1 : i + j + 1 = i + (j + 1) := by omega
  rw [e1]

theorem windowsFrom_cover (g : Nat → ℚ) (i n : Nat)
    (hg : ∀ j, i ≤ j → j < i + n → g j < g (j + 1)) (x : ℚ) :
    (∃ p ∈ windowsFrom g i n, p.1 ≤ x ∧ x < p.2) ↔ g i ≤ x ∧ x < g (i + n) := by
  induction n generalizing i with
  | zero =>
    simp only [windowsFrom, Nat.add_zero]
    constructor
    · rintro ⟨p, hp, -⟩
      exact absurd hp (List.not_mem_nil p)
    · rintro ⟨h1, h2⟩
      exact absurd (lt_of_le_of_lt h1 h2) (lt_irrefl _)
  | succ n ih =>
    have hgr : ∀ j, i + 1 ≤ j → j < (i + 1) + n → g j < g (j + 1) := by
      intro j hj1 hj2
      exact hg j (by omega) (by omega)
    have e1 : i + 1 + n = i + (n + 1) := by omega
    constructor
    · rintro ⟨p, hp, hx1, hx2⟩
      rcases List.mem_cons.mp hp with rfl | hp2
      · refine ⟨hx1, lt_of_lt_of_le hx2 ?_⟩
        exact windows_g_mono g i (n + 1) hg (i + 1) (i + (n + 1)) (by omega) (by omega)
          (by omega)
      · have hrest := (ih (i + 1) hgr).mp ⟨p, hp2, hx1, hx2⟩
        refine ⟨le_trans (le_of_lt (hg i (le_refl i) (by omega))) hrest.1, ?_⟩
        rw [← e1]
        exact hrest.2
    · rintro ⟨h1, h2⟩
      by_cases hc : x < g (i + 1)
      · exact ⟨(g i, g (i + 1)), List.mem_cons_self _ _, h1, hc⟩
      · have h2r : x < g (i + 1 + n) := by rw [e1]; exact h2
        obtain ⟨p, hp, ha, hb⟩ := (ih (i + 1) hgr).mpr ⟨not_lt.mp hc, h2r⟩
        exact ⟨p, List.mem_cons_of_mem _ hp, ha, hb⟩

theorem slots_boundary_step (s e : ℚ) (k : Nat) (hse : s < e) (hk : 1 ≤ k) :
    ∀ j : Nat, (0:Nat) ≤ j → j < 0 + k →
      (fun i : Nat => s + i * ((e - s) / k)) j
        < (fun i : Nat => s + i * ((e - s) / k)) (j + 1) := by
  intro j _ _
  have hk0 : (0:ℚ) < k := by exact_mod_cast hk
  have hc : 0 < (e - s) / (k:ℚ) := div_pos (by linarith) hk0
  show s + (j:ℚ) * ((e - s) / k) < s + ((j + 1 : Nat) : ℚ) * ((e - s) / k)
  have hcast : ((j + 1 : Nat) : ℚ) = (j : ℚ) + 1 := by push_cast; ring
  rw [hcast]
  nlinarith [hc]

theorem delta_uncapped (s e dq : ℚ) (hd : 0 < dq) :
    ∀ j : Nat, j < ⌈(e - s) / dq⌉₊ → s + j * dq < e := by
  intro j hj
  have h1 : (j : ℚ) < (e - s) / dq := Nat.lt_ceil.mp hj
  have h2 : (j : ℚ) * dq < e - s := (lt_div_iff₀ hd).mp h1
  linarith

theorem delta_boundary_step (s e dq : ℚ) (hse : s < e) (hd : 0 < dq) :
    ∀ j : Nat, (0:Nat) ≤ j → j < 0 + ⌈(e - s) / dq⌉₊ →
      (fun i : Nat => min (s + i * dq) e) j
        < (fun i : Nat => min (s + i * dq) e) (j + 1) := by
  intro j _ hj
  rw [Nat.zero_add] at hj
  have hu := delta_uncapped s e dq hd j hj
  show min (s + (j:ℚ) * dq) e < min (s + ((j + 1 : Nat) : ℚ) * dq) e
  rw [min_eq_left (le_of_lt hu)]
  refine lt_min ?_ hu
  have hcast : ((j + 1 : Nat) : ℚ) = (j : ℚ) + 1 := by push_cast; ring
  rw [hcast]
  nlinarith [hd]

/-- C9: for every valid interval [start, end) with start < end and a
sub-interval count slots >= 1 or a duration delta > 0, the window divider
returns an ordered list of pairwise disjoint, non-empty sub-intervals whose
union is exactly [start, end) with no gaps or overlaps (adjacent
sub-intervals share their boundary and every instant of [start, end) falls in
exactly the covered range); in delta mode every sub-interval except possibly
the last has length exactly delta; it fails with an InvalidArgument condition
when start >= end, slots < 1, or delta <= 0. -/
theorem c9_divide_times_contract (s e dq : ℚ) (k : Nat) :
    (s < e → 1 ≤ k →
      ∃ ws, divide_times_slots s e k = .ok ws ∧ ws.length = k ∧ ws ≠ [] ∧
        (∀ p ∈ ws, p.1 < p.2) ∧
        ws.Pairwise (fun p q => p.2 ≤ q.1) ∧
        (∀ j : Nat, ∀ h1 : j < ws.length, ∀ h2 : j + 1 < ws.length,
          (ws[j]).2 = (ws[j + 1]).1) ∧
        (∀ x : ℚ, (∃ p ∈ ws, p.1 ≤ x ∧ x < p.2) ↔ s ≤ x ∧ x < e))
  ∧ (s < e → 0 < dq →
      ∃ ws, divide_times_delta s e dq = .ok ws ∧ ws ≠ [] ∧
        (∀ p ∈ ws, p.1 < p.2) ∧
        ws.Pairwise (fun p q => p.2 ≤ q.1) ∧
        (∀ j : Nat, ∀ h1 : j < ws.length, ∀ h2 : j + 1 < ws.length,
          (ws[j]).2 = (ws[j + 1]).1) ∧
        (∀ x : ℚ, (∃ p ∈ ws, p.1 ≤ x ∧ x < p.2) ↔ s ≤ x ∧ x < e) ∧
        (∀ j : Nat, ∀ h1 : j < ws.length, j + 1 < ws.length →
          (ws[j]).2 - (ws[j]).1 = dq))
  ∧ ((e ≤ s ∨ k < 1) → divide_times_slots s e k = .error .invalidArgument)
  ∧ ((e ≤ s ∨ dq ≤ 0) → divide_times_delta s e dq = .error .invalidArgument) := by
  refine ⟨?_, ?_, ?_, ?_⟩
  · -- slots mode, valid arguments
    intro hse hk
    have hstep := slots_boundary_step s e k hse hk
    have hk0 : (0:ℚ) < k := by exact_mod_cast hk
    have hg0 : (fun i : Nat => s + i * ((e - s) / k)) 0 = s := by simp
    have hgk : (fun i : Nat => s + i * ((e - s) / k)) (0 + k) = e := by
      show s + ((0 + k : Nat) : ℚ) * ((e - s) / k) = e
      rw [Nat.zero_add, ← mul_div_assoc, mul_div_cancel_left₀ _ (ne_of_gt hk0)]
      ring
    refine ⟨windowsFrom (fun i : Nat => s + i * ((e - s) / k)) 0 k, ?_,
      windowsFrom_length _ 0 k, ?_,
      windowsFrom_nonempty_each _ 0 k hstep,
      windowsFrom_pairwise _ 0 k hstep,
      (fun j h1 h2 => windowsFrom_adjacent _ 0 k j h1 h2), ?_⟩
    · unfold divide_times_slots
      rw [if_neg (not_le.mpr hse), if_neg (by omega)]
    · refine List.length_pos.mp ?_
      rw [windowsFrom_length]
      omega
    · intro x
      have hc := windowsFrom_cover (fun i : Nat => s + i * ((e - s) / k)) 0 k hstep x
      have h0 : s + ((0 : ℕ) : ℚ) * ((e - s) / k) = s := by push_cast; ring
      have hK : s + ((0 + k : ℕ) : ℚ) * ((e - s) / k) = e := by
        have hcast : ((0 + k : ℕ) : ℚ) = (k : ℚ) := by push_cast; ring
        rw [hcast, ← mul_div_assoc, mul_div_cancel_left₀ _ (ne_of_gt hk0)]
        ring
      rw [h0, hK] at hc
      exact hc
  · -- delta mode, valid arguments
    intro hse hd
    have hstep := delta_boundary_step s e dq hse hd
    have hn1 : 1 ≤ ⌈(e - s) / dq⌉₊ := Nat.ceil_pos.mpr (div_pos (by linarith) hd)
    have hg0 : (fun i : Nat => min (s + i * dq) e) 0 = s := by
      show min (s + (0:ℚ) * dq) e = s
      rw [zero_mul, add_zero, min_eq_left (le_of_lt hse)]
    have hgn : (fun i : Nat => min (s + i * dq) e) (0 + ⌈(e - s) / dq⌉₊) = e := by
      show min (s + ((0 + ⌈(e - s) / dq⌉₊ : Nat) : ℚ) * dq) e = e
      rw [Nat.zero_add]
      refine min_eq_right ?_
      have h1 : (e - s) / dq ≤ (⌈(e - s) / dq⌉₊ : ℚ) := Nat.le_ceil _
      have h2 : e - s ≤ (⌈(e - s) / dq⌉₊ : ℚ) * dq := (div_le_iff₀ hd).mp h1
      linarith
    refine ⟨windowsFrom (fun i : Nat => min (s + i * dq) e) 0 ⌈(e - s) / dq⌉₊, ?_, ?_,
      windowsFrom_nonempty_each _ 0 _ hstep,
      windowsFrom_pairwise _ 0 _ hstep,
      (fun j h1 h2 => windowsFrom_adjacent _ 0 _ j h1 h2), ?_, ?_⟩
    · unfold divide_times_delta
      rw [if_neg (not_le.mpr hse), if_neg (not_le.mpr hd)]
    · refine List.length_pos.mp ?_
      rw [windowsFrom_length]
      omega
    · intro x
      have hc := windowsFrom_cover (fun i : Nat => min (s + i * dq) e) 0 _ hstep x
      have h0 : min (s + ((0 : ℕ) : ℚ) * dq) e = s := by
        rw [Nat.cast_zero, zero_mul, add_zero, min_eq_left (le_of_lt hse)]
      have hN : min (s + ((0 + ⌈(e - s) / dq⌉₊ : ℕ) : ℚ) * dq) e = e := by
        have hcast : ((0 + ⌈(e - s) / dq⌉₊ : ℕ) : ℚ) = (⌈(e - s) / dq⌉₊ : ℚ) := by
          push_cast
          ring
        rw [hcast]
        refine min_eq_right ?_
        have h1 : (e - s) / dq ≤ (⌈(e - s) / dq⌉₊ : ℚ) := Nat.le_ceil _
        have h2 : e - s ≤ (⌈(e - s) / dq⌉₊ : ℚ) * dq := (div_le_iff₀ hd).mp h1
        linarith
      rw [h0, hN] at hc
      exact hc
    · intro j h1 h2
      rw [windowsFrom_length] at h1 h2
      have e1 : (windowsFrom (fun i : Nat => min (s + i * dq) e) 0 ⌈(e - s) / dq⌉₊)[j]
          = ((fun i : Nat => min (s + i * dq) e) (0 + j),
             (fun i : Nat => min (s + i * dq) e) (0 + j + 1)) :=
        windowsFrom_getElem _ 0 _ j (by rw [windowsFrom_length]; exact h1)
      rw [e1]
      have hu1 : s + (j:ℚ) * dq < e := delta_uncapped s e dq hd j h1
      have hu2 : s + ((j + 1 : Nat) : ℚ) * dq < e := delta_uncapped s e dq hd (j + 1) h2
      show min (s + ((0 + j + 1 : Nat) : ℚ) * dq) e - min (s + ((0 + j : Nat) : ℚ) * dq) e = dq
      rw [Nat.zero_add]
      rw [min_eq_left (le_of_lt hu2), min_eq_left (le_of_lt hu1)]
      push_cast
      ring
  · -- slots mode, invalid arguments
    rintro (h | h)
    · unfold divide_times_slots
      rw [if_pos h]
    · unfold divide_times_slots
      by_cases h2 : e ≤ s
      · rw [if_pos h2]
      · rw [if_neg h2, if_pos h]
  · -- delta mode, invalid arguments
    rintro (h | h)
    · unfold divide_times_delta
      rw [if_pos h]
    · unfold divide_times_delta
      by_cases h2 : e ≤ s
      · rw [if_pos h2]
      · rw [if_neg h2, if_pos (by linarith : dq ≤ 0)]

/-- Witness for c9_divide_times_contract: slots mode on the concrete interval
[0, 10) divided in 4 slots, hypotheses discharged at the concrete input. -/
theorem c9_divide_times_contract_witness :
    ((0:ℚ) < 10 ∧ (1 ≤ 4)) ∧
    (∃ ws, divide_times_slots 0 10 4 = .ok ws ∧ ws.length = 4 ∧ ws ≠ [] ∧
        (∀ p ∈ ws, p.1 < p.2) ∧
        ws.Pairwise (fun p q => p.2 ≤ q.1) ∧
        (∀ j : Nat, ∀ h1 : j < ws.length, ∀ h2 : j + 1 < ws.length,
          (ws[j]).2 = (ws[j + 1]).1) ∧
        (∀ x : ℚ, (∃ p ∈ ws, p.1 ≤ x ∧ x < p.2) ↔ 0 ≤ x ∧ x < 10)) :=
  ⟨⟨by norm_num, by norm_num⟩,
    (c9_divide_times_contract 0 10 3 4).1 (by norm_num) (by norm_num)⟩

theorem wait_for_go_ok (status : Nat → Bool) (j n : Nat) :
    wait_for_go status j n = .ok true ↔ ∃ m, m < n ∧ status (j + m) = true := by
  induction n generalizing j with
  | zero =>
    constructor
    · intro h
      exact absurd h (by simp [wait_for_go])
    · rintro ⟨m, hm, -⟩
      exact absurd hm (Nat.not_lt_zero m)
  | succ n ih =>
    by_cases h : status j = true
    · rw [show wait_for_go status j (n + 1) = Except.ok true by simp [wait_for_go, h]]
      constructor
      · intro _
        exact ⟨0, Nat.succ_pos n, by simpa using h⟩
      · intro _
        rfl
    · rw [show wait_for_go status j (n + 1) = wait_for_go status (j + 1) n by
        simp [wait_for_go, h]]
      rw [ih (j + 1)]
      constructor
      · rintro ⟨m, hm, hs⟩
        refine ⟨m + 1, by omega, ?_⟩
        have e1 : j + (m + 1) = j + 1 + m := by omega
        rw [e1]
        exact hs
      · rintro ⟨m, hm, hs⟩
        cases m with
        | zero => rw [Nat.add_zero] at hs; exact absurd hs h
        | succ m =>
          refine ⟨m, by omega, ?_⟩
          have e1 : j + 1 + m = j + (m + 1) := by omega
          rw [e1]
          exact hs

theorem wait_for_go_timeout (status : Nat → Bool) (j n : Nat) :
    wait_for_go status j n = .error .timeout ↔ ∀ m, m < n → status (j + m) = false := by
  induction n generalizing j with
  | zero =>
    constructor
    · intro _ m hm
      exact absurd hm (Nat.not_lt_zero m)
    · intro _
      rfl
  | succ n ih =>
    by_cases h : status j = true
    · rw [show wait_for_go status j (n + 1) = Except.ok true by simp [wait_for_go, h]]
      constructor
      · intro hcontra
        exact absurd hcontra (by simp)
      · intro hall
        have h0 := hall 0 (Nat.succ_pos n)
        rw [Nat.add_zero] at h0
        rw [h0] at h
        exact absurd h (by simp)
    · rw [show wait_for_go status j (n + 1) = wait_for_go status (j + 1) n by
        simp [wait_for_go, h]]
      rw [ih (j + 1)]
      constructor
      · intro hall m hm
        cases m with
        | zero =>
          rw [Nat.add_zero]
          exact Bool.eq_false_iff.mpr h
        | succ m =>
          have e1 : j + (m + 1) = j + 1 + m := by omega
          rw [e1]
          exact hall m (by omega)
      · intro hall m hm
        have e1 : j + 1 + m = j + (m + 1) := by omega
        rw [e1]
        exact hall (m + 1) (by omega)

/-- C8: for every submitted query the poll step repeatedly requests the
completion status at a fixed sleep interval, performing exactly the polls
whose cumulative sleep is still below the wait budget (for the default
budget of 120 s and interval of 0.2 s, 600 polls); it returns True exactly
when some poll within the budget reports completion, and it does so as soon
as completion is reported (the outcome does not depend on any poll after the
first complete one); if the budget elapses with no poll reporting
completion, it fails with the query-timeout condition, which is a different
condition from every remote-service error. -/
theorem c8_wait_poll_contract (status : Nat → Bool) (w sl : ℚ) (hsl : 0 < sl) :
    (∀ j : Nat, ((j : ℚ) * sl < w ↔ j < numPolls w sl))
  ∧ (wait_for status w sl = .ok true ↔
      ∃ j, j < numPolls w sl ∧ status j = true)
  ∧ (wait_for status w sl = .error .timeout ↔
      ∀ j, j < numPolls w sl → status j = false)
  ∧ (∀ j, j < numPolls w sl → status j = true →
      ∀ status2 : Nat → Bool, (∀ m, m ≤ j → status2 m = status m) →
        wait_for status2 w sl = .ok true)
  ∧ numPolls 120 (1/5) = 600
  ∧ (∀ c : Nat, QueryError.timeout ≠ QueryError.nitro c) := by
  refine ⟨?_, ?_, ?_, ?_, ?_, ?_⟩
  · intro j
    rw [numPolls, Nat.lt_ceil, lt_div_iff₀ hsl]
  · rw [wait_for, wait_for_go_ok]
    constructor
    · rintro ⟨m, hm, hs⟩
      rw [Nat.zero_add] at hs
      exact ⟨m, hm, hs⟩
    · rintro ⟨m, hm, hs⟩
      refine ⟨m, hm, ?_⟩
      rw [Nat.zero_add]
      exact hs
  · rw [wait_for, wait_for_go_timeout]
    constructor
    · intro hall j hj
      have := hall j hj
      rw [Nat.zero_add] at this
      exact this
    · intro hall j hj
      rw [Nat.zero_add]
      exact hall j hj
  · intro j hj hs status2 hagree
    rw [wait_for, wait_for_go_ok]
    refine ⟨j, hj, ?_⟩
    rw [Nat.zero_add, hagree j (le_refl j)]
    exact hs
  · rw [numPolls]
    norm_num
  · intro c h
    exact QueryError.noConfusion h

/-- Witness for c8_wait_poll_contract: the default 0.2 second sleep interval
is positive; instantiated with a status oracle that reports completion on
poll 3 and the default 120 second budget. -/
theorem c8_wait_poll_contract_witness :
    (0:ℚ) < 1/5 ∧
    ((∀ j : Nat, ((j : ℚ) * (1/5) < 120 ↔ j < numPolls 120 (1/5)))
  ∧ (wait_for (fun j => j == 3) 120 (1/5) = .ok true ↔
      ∃ j, j < numPolls 120 (1/5) ∧ (fun j : Nat => j == 3) j = true)
  ∧ (wait_for (fun j => j == 3) 120 (1/5) = .error .timeout ↔
      ∀ j, j < numPolls 120 (1/5) → (fun j : Nat => j == 3) j = false)
  ∧ (∀ j, j < numPolls 120 (1/5) → (fun j : Nat => j == 3) j = true →
      ∀ status2 : Nat → Bool, (∀ m, m ≤ j → status2 m = (fun j : Nat => j == 3) m) →
        wait_for status2 120 (1/5) = .ok true)
  ∧ numPolls 120 (1/5) = 600
  ∧ (∀ c : Nat, QueryError.timeout ≠ QueryError.nitro c)) :=
  ⟨by norm_num, c8_wait_poll_contract (fun j => j == 3) 120 (1/5) (by norm_num)⟩

theorem qry_go_ok_eq (att : Nat → ℚ → Except QueryError (List Row)) (limit : Nat)
    (idx r : Nat) (w : ℚ) (rows : List Row) (hatt : att idx w = .ok rows) :
    qry_load_data_go att limit idx r w =
      ([.attempt idx w], .ok (rows, decide (rows.length < limit))) := by
  cases r with
  | zero => simp [qry_load_data_go, hatt]
  | succ r => simp [qry_load_data_go, hatt]

theorem qry_go_error_zero_eq (att : Nat → ℚ → Except QueryError (List Row)) (limit : Nat)
    (idx : Nat) (w : ℚ) (e : QueryError) (hatt : att idx w = .error e) :
    qry_load_data_go att limit idx 0 w = ([.attempt idx w], .error e) := by
  simp [qry_load_data_go, hatt]

theorem qry_go_error_succ_eq (att : Nat → ℚ → Except QueryError (List Row)) (limit : Nat)
    (idx r : Nat) (w : ℚ) (e : QueryError) (hatt : att idx w = .error e) :
    qry_load_data_go att limit idx (r + 1) w =
      (.attempt idx w :: .sleepSec 1 :: (qry_load_data_go att limit (idx + 1) r 120).1,
       (qry_load_data_go att limit (idx + 1) r 120).2) := by
  simp [qry_load_data_go, hatt]

theorem qry_go_ok_flag (att : Nat → ℚ → Except QueryError (List Row)) (limit : Nat)
    (idx retry : Nat) (w : ℚ) (tr : List QryAction) (rows : List Row) (c : Bool)
    (hq : qry_load_data_go att limit idx retry w = (tr, .ok (rows, c))) :
    c = decide (rows.length < limit) := by
  induction retry generalizing idx w tr with
  | zero =>
    cases hatt : att idx w with
    | ok rows2 =>
      rw [qry_go_ok_eq att limit idx 0 w rows2 hatt] at hq
      have h2 := congrArg Prod.snd hq
      injection h2 with h3
      injection h3 with h4 h5
      rw [← h5, h4]
    | error e =>
      rw [qry_go_error_zero_eq att limit idx w e hatt] at hq
      have h2 := congrArg Prod.snd hq
      exact absurd h2 (by simp)
  | succ r ih =>
    cases hatt : att idx w with
    | ok rows2 =>
      rw [qry_go_ok_eq att limit idx (r + 1) w rows2 hatt] at hq
      have h2 := congrArg Prod.snd hq
      injection h2 with h3
      injection h3 with h4 h5
      rw [← h5, h4]
    | error e =>
      rw [qry_go_error_succ_eq att limit idx r w e hatt] at hq
      have h2 := congrArg Prod.snd hq
      exact ih (idx + 1) 120 (qry_load_data_go att limit (idx + 1) r 120).1
        (by rw [Prod.ext_iff]; exact ⟨rfl, h2⟩)

theorem qry_go_error_all (att : Nat → ℚ → Except QueryError (List Row)) (limit : Nat)
    (f : Nat → QueryError) (hatt : ∀ k, ∀ wk : ℚ, att k wk = .error (f k)) :
    ∀ retry idx, ∀ w : ℚ,
      attemptCount (qry_load_data_go att limit idx retry w).1 = retry + 1
      ∧ (qry_load_data_go att limit idx retry w).2 = .error (f (idx + retry)) := by
  intro retry
  induction retry with
  | zero =>
    intro idx w
    rw [qry_go_error_zero_eq att limit idx w (f idx) (hatt idx w)]
    exact ⟨rfl, rfl⟩
  | succ r ih =>
    intro idx w
    rw [qry_go_error_succ_eq att limit idx r w (f idx) (hatt idx w)]
    have hrec := ih (idx + 1) 120
    constructor
    · show attemptCount (.attempt idx w :: .sleepSec 1 ::
        (qry_load_data_go att limit (idx + 1) r 120).1) = r + 1 + 1
      have h1 := hrec.1
      simp only [attemptCount]
      omega
    · show (qry_load_data_go att limit (idx + 1) r 120).2 = .error (f (idx + (r + 1)))
      rw [hrec.2]
      have e1 : idx + 1 + r = idx + (r + 1) := by omega
      rw [e1]

theorem qry_go_attempt_mem (att : Nat → ℚ → Except QueryError (List Row)) (limit : Nat) :
    ∀ retry idx, ∀ w0 wa : ℚ, ∀ j : Nat,
      QryAction.attempt j wa ∈ (qry_load_data_go att limit idx retry w0).1 →
      (j = idx ∧ wa = w0) ∨ (idx < j ∧ wa = 120) := by
  intro retry
  induction retry with
  | zero =>
    intro idx w0 wa j hmem
    cases hatt : att idx w0 with
    | ok rows =>
      rw [qry_go_ok_eq att limit idx 0 w0 rows hatt] at hmem
      rw [List.mem_singleton] at hmem
      injection hmem with h1 h2
      exact Or.inl ⟨h1, h2⟩
    | error e =>
      rw [qry_go_error_zero_eq att limit idx w0 e hatt] at hmem
      rw [List.mem_singleton] at hmem
      injection hmem with h1 h2
      exact Or.inl ⟨h1, h2⟩
  | succ r ih =>
    intro idx w0 wa j hmem
    cases hatt : att idx w0 with
    | ok rows =>
      rw [qry_go_ok_eq att limit idx (r + 1) w0 rows hatt] at hmem
      rw [List.mem_singleton] at hmem
      injection hmem with h1 h2
      exact Or.inl ⟨h1, h2⟩
    | error e =>
      rw [qry_go_error_succ_eq att limit idx r w0 e hatt] at hmem
      rcases List.mem_cons.mp hmem with h | h
      · injection h with h1 h2
        exact Or.inl ⟨h1, h2⟩
      · rcases List.mem_cons.mp h with h2 | h2
        · exact QryAction.noConfusion h2
        · rcases ih (idx + 1) 120 wa j h2 with ⟨h3, h4⟩ | ⟨h3, h4⟩
          · exact Or.inr ⟨by omega, h4⟩
          · exact Or.inr ⟨by omega, h4⟩

theorem qry_go_head (att : Nat → ℚ → Except QueryError (List Row)) (limit : Nat)
    (idx retry : Nat) (w : ℚ) :
    ∃ t, (qry_load_data_go att limit idx retry w).1 = .attempt idx w :: t := by
  cases hatt : att idx w with
  | ok rows =>
    exact ⟨[], by rw [qry_go_ok_eq att limit idx retry w rows hatt]⟩
  | error e =>
    cases retry with
    | zero => exact ⟨[], by rw [qry_go_error_zero_eq att limit idx w e hatt]⟩
    | succ r =>
      exact ⟨.sleepSec 1 :: (qry_load_data_go att limit (idx + 1) r 120).1,
        by rw [qry_go_error_succ_eq att limit idx r w e hatt]⟩

theorem load_data_completed_eq (server : QTimeRange → List Row)
    (resolve : String → ℚ × ℚ) (slots depth : Nat) (q : EventQuerySpec)
    (delta : Option ℚ) (flag : Bool)
    (h : (server q.time_range).length < q.limit) :
    load_data server resolve slots depth q delta flag =
      .ok ⟨server q.time_range, flag, 0, [q.time_range]⟩ := by
  cases depth with
  | zero => simp [load_data, h]
  | succ d => simp [load_data, h]

theorem load_data_zero_trunc_eq (server : QTimeRange → List Row)
    (resolve : String → ℚ × ℚ) (slots : Nat) (q : EventQuerySpec)
    (delta : Option ℚ) (flag : Bool)
    (h : q.limit ≤ (server q.time_range).length) :
    load_data server resolve slots 0 q delta flag =
      .ok ⟨server q.time_range, true, if flag then 0 else 1, [q.time_range]⟩ := by
  cases flag <;> simp [load_data, Nat.not_lt.mpr h]

theorem load_data_succ_trunc_eq (server : QTimeRange → List Row)
    (resolve : String → ℚ × ℚ) (slots d : Nat) (q : EventQuerySpec)
    (delta : Option ℚ) (flag : Bool)
    (h : q.limit ≤ (server q.time_range).length) :
    load_data server resolve slots (d + 1) q delta flag =
      splitStep (fun sq fl => load_data server resolve slots d sq none fl) q flag
        (chooseDivision q.hasParent delta (resolvedWindow resolve q).1
          (resolvedWindow resolve q).2 slots) := by
  simp [load_data, Nat.not_lt.mpr h]

theorem load_data_children_flag_inv
    (f : EventQuerySpec → Bool → Except DivideError LoadResult)
    (hf : ∀ sq fl r, f sq fl = .ok r →
      (fl = true → r.flag = true ∧ r.warnings = 0)
      ∧ r.warnings = (if fl = true then 0 else if r.flag = true then 1 else 0)) :
    ∀ subs flag acc, load_data_children f subs flag = .ok acc →
      (flag = true → acc.flag = true ∧ acc.warnings = 0)
      ∧ acc.warnings = (if flag = true then 0 else if acc.flag = true then 1 else 0) := by
  intro subs
  induction subs with
  | nil =>
    intro flag acc h
    simp only [load_data_children] at h
    injection h with h2
    subst h2
    constructor
    · intro hfl
      exact ⟨hfl, rfl⟩
    · cases flag <;> simp
  | cons sq rest ih =>
    intro flag acc h
    simp only [load_data_children] at h
    cases hfsq : f sq flag with
    | error e => rw [hfsq] at h; exact absurd h (by simp)
    | ok r =>
      rw [hfsq] at h
      cases hrest : load_data_children f rest r.flag with
      | error e =>
        simp only [hrest] at h
        exact absurd h (by simp)
      | ok acc2 =>
        simp only [hrest] at h
        injection h with h2
        subst h2
        obtain ⟨hrm, hrw⟩ := hf sq flag r hfsq
        obtain ⟨ham, haw⟩ := ih r.flag acc2 hrest
        constructor
        · intro hfl
          obtain ⟨hr1, hr2⟩ := hrm hfl
          obtain ⟨ha1, ha2⟩ := ham hr1
          exact ⟨ha1, by simp [hr2, ha2]⟩
        · show r.warnings + acc2.warnings =
            (if flag = true then 0 else if acc2.flag = true then 1 else 0)
          cases hffl : flag with
          | true =>
            obtain ⟨hr1, hr2⟩ := hrm hffl
            obtain ⟨ha1, ha2⟩ := ham hr1
            simp [hffl, hr2, ha2]
          | false =>
            cases hrf : r.flag with
            | true =>
              obtain ⟨ha1, ha2⟩ := ham hrf
              rw [hffl] at hrw
              rw [hrf] at hrw
              simp only [if_neg (by simp : ¬(false = true)), if_pos rfl] at hrw
              simp [hrw, ha2, ha1]
            | false =>
              rw [hffl] at hrw
              rw [hrf] at hrw
              simp only [if_neg (by simp : ¬(false = true))] at hrw
              rw [hrf] at haw
              simp [hrw, haw]

theorem load_data_flag_inv (server : QTimeRange → List Row)
    (resolve : String → ℚ × ℚ) (slots : Nat) :
    ∀ depth (q : EventQuerySpec) (delta : Option ℚ) (flag : Bool) (r : LoadResult),
      load_data server resolve slots depth q delta flag = .ok r →
      (flag = true → r.flag = true ∧ r.warnings = 0)
      ∧ r.warnings = (if flag = true then 0 else if r.flag = true then 1 else 0) := by
  intro depth
  induction depth with
  | zero =>
    intro q delta flag r h
    by_cases hc : (server q.time_range).length < q.limit
    · rw [load_data_completed_eq server resolve slots 0 q delta flag hc] at h
      injection h with h2
      subst h2
      refine ⟨fun hfl => ⟨hfl, rfl⟩, ?_⟩
      cases flag <;> simp
    · rw [load_data_zero_trunc_eq server resolve slots q delta flag
        (Nat.le_of_not_lt hc)] at h
      injection h with h2
      subst h2
      constructor
      · intro hfl
        subst hfl
        exact ⟨rfl, by simp⟩
      · cases flag <;> simp
  | succ d ih =>
    intro q delta flag r h
    by_cases hc : (server q.time_range).length < q.limit
    · rw [load_data_completed_eq server resolve slots (d + 1) q delta flag hc] at h
      injection h with h2
      subst h2
      refine ⟨fun hfl => ⟨hfl, rfl⟩, ?_⟩
      cases flag <;> simp
    · rw [load_data_succ_trunc_eq server resolve slots d q delta flag
        (Nat.le_of_not_lt hc)] at h
      cases hdiv : chooseDivision q.hasParent delta (resolvedWindow resolve q).1
          (resolvedWindow resolve q).2 slots with
      | error e => rw [hdiv] at h; exact absurd h (by simp [splitStep])
      | ok times =>
        rw [hdiv] at h
        cases hch : load_data_children
            (fun sq fl => load_data server resolve slots d sq none fl)
            (times.map (buildSubQuery q)) flag with
        | error e =>
          simp only [splitStep] at h
          rw [hch] at h
          exact absurd h (by simp)
        | ok acc =>
          simp only [splitStep, hch] at h
          injection h with h2
          subst h2
          have hinv := load_data_children_flag_inv
            (fun sq fl => load_data server resolve slots d sq none fl)
            (fun sq fl rr hok => ih sq none fl rr hok)
            (times.map (buildSubQuery q)) flag acc hch
          exact hinv

theorem load_data_children_spec
    (f : EventQuerySpec → Bool → Except DivideError LoadResult) :
    ∀ subs flag acc, load_data_children f subs flag = .ok acc →
      acc.resultsLists.length = subs.length
      ∧ ∀ i, ∀ h1 : i < subs.length, ∀ h2 : i < acc.resultsLists.length,
          ∃ fl r, f subs[i] fl = .ok r ∧ acc.resultsLists[i] = r.items := by
  intro subs
  induction subs with
  | nil =>
    intro flag acc h
    simp only [load_data_children] at h
    injection h with h2
    subst h2
    refine ⟨rfl, fun i h1 h2 => absurd h1 (by simp)⟩
  | cons sq rest ih =>
    intro flag acc h
    simp only [load_data_children] at h
    cases hfsq : f sq flag with
    | error e => rw [hfsq] at h; exact absurd h (by simp)
    | ok r =>
      rw [hfsq] at h
      cases hrest : load_data_children f rest r.flag with
      | error e =>
        simp only [hrest] at h
        exact absurd h (by simp)
      | ok acc2 =>
        simp only [hrest] at h
        injection h with h2
        subst h2
        obtain ⟨hlen, hidx⟩ := ih r.flag acc2 hrest
        constructor
        · simp [hlen]
        · intro i h1 h2
          cases i with
          | zero => exact ⟨flag, r, hfsq, rfl⟩
          | succ i =>
            have hb1 : i < rest.length := by simpa using h1
            have hb2 : i < acc2.resultsLists.length := by simpa using h2
            obtain ⟨fl, rr, hok, hval⟩ := hidx i hb1 hb2
            refine ⟨fl, rr, ?_, ?_⟩
            · simpa using hok
            · simpa using hval

theorem foldr_max_le (l : List Nat) (c : Nat) (h : ∀ x ∈ l, x ≤ c) :
    l.foldr max 0 ≤ c := by
  induction l with
  | nil => exact Nat.zero_le c
  | cons a l ih =>
    simp only [List.foldr_cons]
    exact max_le (h a (List.mem_cons_self a l))
      (ih (fun x hx => h x (List.mem_cons_of_mem a hx)))

theorem maxInFlight_completed_eq (server : QTimeRange → List Row)
    (resolve : String → ℚ × ℚ) (slots workers d : Nat) (q : EventQuerySpec)
    (delta : Option ℚ) (hc : (server q.time_range).length < q.limit) :
    maxInFlight server resolve slots workers (d + 1) q delta = 1 := by
  simp [maxInFlight, hc]

theorem maxInFlight_errdiv_eq (server : QTimeRange → List Row)
    (resolve : String → ℚ × ℚ) (slots workers d : Nat) (q : EventQuerySpec)
    (delta : Option ℚ) (e : DivideError)
    (hc : ¬(server q.time_range).length < q.limit)
    (hdiv : chooseDivision q.hasParent delta (resolvedWindow resolve q).1
      (resolvedWindow resolve q).2 slots = .error e) :
    maxInFlight server resolve slots workers (d + 1) q delta = 1 := by
  simp [maxInFlight, hc, hdiv]

theorem maxInFlight_split_eq (server : QTimeRange → List Row)
    (resolve : String → ℚ × ℚ) (slots workers d : Nat) (q : EventQuerySpec)
    (delta : Option ℚ) (times : List (ℚ × ℚ))
    (hc : ¬(server q.time_range).length < q.limit)
    (hdiv : chooseDivision q.hasParent delta (resolvedWindow resolve q).1
      (resolvedWindow resolve q).2 slots = .ok times) :
    maxInFlight server resolve slots workers (d + 1) q delta =
      (if q.hasParent then
        max 1 (((times.map (buildSubQuery q)).map
          (fun sq => maxInFlight server resolve slots workers d sq none)).foldr max 0)
      else
        max 1 (min workers (times.map (buildSubQuery q)).length *
          ((times.map (buildSubQuery q)).map
            (fun sq => maxInFlight server resolve slots workers d sq none)).foldr
              max 0)) := by
  simp [maxInFlight, hc, hdiv]

theorem maxInFlight_nonroot (server : QTimeRange → List Row)
    (resolve : String → ℚ × ℚ) (slots workers : Nat) :
    ∀ depth (q : EventQuerySpec) (delta : Option ℚ), q.hasParent = true →
      maxInFlight server resolve slots workers depth q delta = 1 := by
  intro depth
  induction depth with
  | zero =>
    intro q delta hp
    rfl
  | succ d ih =>
    intro q delta hp
    by_cases hc : (server q.time_range).length < q.limit
    · exact maxInFlight_completed_eq server resolve slots workers d q delta hc
    · cases hdiv : chooseDivision q.hasParent delta (resolvedWindow resolve q).1
          (resolvedWindow resolve q).2 slots with
      | error e => exact maxInFlight_errdiv_eq server resolve slots workers d q delta e hc hdiv
      | ok times =>
        have hper : ((times.map (buildSubQuery q)).map
            (fun sq => maxInFlight server resolve slots workers d sq none)).foldr
              max 0 ≤ 1 := by
          refine foldr_max_le _ 1 ?_
          intro x hx
          rcases List.mem_map.mp hx with ⟨sq, hsq, rfl⟩
          rcases List.mem_map.mp hsq with ⟨w, hw, rfl⟩
          rw [ih (buildSubQuery q w) none rfl]
        rw [maxInFlight_split_eq server resolve slots workers d q delta times hc hdiv,
          hp, if_pos rfl]
        omega

theorem maxInFlight_le (server : QTimeRange → List Row)
    (resolve : String → ℚ × ℚ) (slots workers : Nat) (hw : 1 ≤ workers) :
    ∀ depth (q : EventQuerySpec) (delta : Option ℚ),
      maxInFlight server resolve slots workers depth q delta ≤ workers := by
  intro depth q delta
  cases depth with
  | zero =>
    show 1 ≤ workers
    exact hw
  | succ d =>
    by_cases hc : (server q.time_range).length < q.limit
    · rw [maxInFlight_completed_eq server resolve slots workers d q delta hc]
      exact hw
    · cases hdiv : chooseDivision q.hasParent delta (resolvedWindow resolve q).1
          (resolvedWindow resolve q).2 slots with
      | error e =>
        rw [maxInFlight_errdiv_eq server resolve slots workers d q delta e hc hdiv]
        exact hw
      | ok times =>
        have hper : ((times.map (buildSubQuery q)).map
            (fun sq => maxInFlight server resolve slots workers d sq none)).foldr
              max 0 ≤ 1 := by
          refine foldr_max_le _ 1 ?_
          intro x hx
          rcases List.mem_map.mp hx with ⟨sq, hsq, rfl⟩
          rcases List.mem_map.mp hsq with ⟨w, hw2, rfl⟩
          rw [maxInFlight_nonroot server resolve slots workers d
            (buildSubQuery q w) none rfl]
        rw [maxInFlight_split_eq server resolve slots workers d q delta times hc hdiv]
        cases hp : q.hasParent with
        | true =>
          rw [if_pos rfl]
          omega
        | false =>
          rw [if_neg (by simp)]
          have h1 : min workers (times.map (buildSubQuery q)).length *
              ((times.map (buildSubQuery q)).map
                (fun sq => maxInFlight server resolve slots workers d sq none)).foldr
                  max 0 ≤ workers := by
            have h2 := Nat.mul_le_mul_left
              (min workers (times.map (buildSubQuery q)).length) hper
            rw [Nat.mul_one] at h2
            exact le_trans h2 (min_le_left _ _)
          exact max_le hw h1

/-- C1: for every query attempt executed by _qry_load_data, the attempt
result is reported complete exactly when the number of rows returned is
strictly below the query limit (event.py line 386); and when an attempt
returns fewer than limit rows, load_data returns exactly those rows, leaves
the root flag unchanged, emits no warning, and performs no recursive
splitting: its own window is the only one queried (event.py lines 409-412). -/
theorem c1_complete_iff_below_limit
    (att : Nat → ℚ → Except QueryError (List Row)) (limit : Nat)
    (idx retry : Nat) (w : ℚ) (tr : List QryAction) (rows : List Row) (c : Bool)
    (hq : qry_load_data_go att limit idx retry w = (tr, .ok (rows, c)))
    (server : QTimeRange → List Row) (resolve : String → ℚ × ℚ)
    (slots depth : Nat) (q : EventQuerySpec) (delta : Option ℚ) (flag : Bool)
    (hcomp : (server q.time_range).length < q.limit) :
    (c = true ↔ rows.length < limit)
  ∧ load_data server resolve slots depth q delta flag =
      .ok ⟨server q.time_range, flag, 0, [q.time_range]⟩ := by
  constructor
  · rw [qry_go_ok_flag att limit idx retry w tr rows c hq]
    simp
  · exact load_data_completed_eq server resolve slots depth q delta flag hcomp

/-- Witness for c1_complete_iff_below_limit: a query whose single attempt
returns 0 rows against limit 500 is complete, and load_data loads exactly
those rows with no splitting. -/
theorem c1_complete_iff_below_limit_witness :
    (qry_load_data_go okAtt 500 0 1 120 = ([.attempt 0 120], .ok ([], true))
      ∧ (emptyServer sampleSpec.time_range).length < sampleSpec.limit)
  ∧ ((true = true ↔ ([] : List Row).length < 500)
      ∧ load_data emptyServer sampleResolve 10 2 sampleSpec none false =
          .ok ⟨emptyServer sampleSpec.time_range, false, 0, [sampleSpec.time_range]⟩) :=
  ⟨⟨rfl, by decide⟩,
    c1_complete_iff_below_limit okAtt 500 0 1 120 [.attempt 0 120] [] true rfl
      emptyServer sampleResolve 10 2 sampleSpec none false (by decide)⟩

/-- C2: the retry policy of _qry_load_data (event.py lines 378-384). With an
exhausted budget a failure propagates to the caller unchanged; with budget
r + 1 a failure leads to a one second sleep and a re-run of the whole
submit, wait, fetch, close sequence with budget r; a success returns at once
with no further attempt, whatever the remaining budget; and under a
persistently failing oracle a run with budget N performs exactly N + 1
attempts (N re-attempts after the first) and then propagates the last
failure. -/
theorem c2_retry_policy (att : Nat → ℚ → Except QueryError (List Row)) (limit : Nat)
    (idx r : Nat) (w : ℚ) :
    (∀ e, att idx w = .error e →
      qry_load_data_go att limit idx 0 w = ([.attempt idx w], .error e))
  ∧ (∀ e, att idx w = .error e →
      qry_load_data_go att limit idx (r + 1) w =
        (.attempt idx w :: .sleepSec 1 :: (qry_load_data_go att limit (idx + 1) r 120).1,
         (qry_load_data_go att limit (idx + 1) r 120).2))
  ∧ (∀ rows, att idx w = .ok rows →
      qry_load_data_go att limit idx r w =
        ([.attempt idx w], .ok (rows, decide (rows.length < limit))))
  ∧ (∀ f : Nat → QueryError, (∀ k, ∀ wk : ℚ, att k wk = .error (f k)) →
      attemptCount (qry_load_data att limit r w).1 = r + 1
      ∧ (qry_load_data att limit r w).2 = .error (f r)) := by
  refine ⟨?_, ?_, ?_, ?_⟩
  · intro e he
    exact qry_go_error_zero_eq att limit idx w e he
  · intro e he
    exact qry_go_error_succ_eq att limit idx r w e he
  · intro rows hr
    exact qry_go_ok_eq att limit idx r w rows hr
  · intro f hf
    have h := qry_go_error_all att limit f hf r 0 w
    rw [Nat.zero_add] at h
    exact h

/-- Witness for c2_retry_policy: a persistently failing query with budget 2
performs 3 attempts and propagates the error of the last attempt. -/
theorem c2_retry_policy_witness :
    (∀ k, ∀ wk : ℚ, failAtt k wk = .error (QueryError.nitro k))
  ∧ (attemptCount (qry_load_data failAtt 500 2 60).1 = 3
      ∧ (qry_load_data failAtt 500 2 60).2 = .error (.nitro 2)) :=
  ⟨fun k wk => rfl,
    (c2_retry_policy failAtt 500 0 2 60).2.2.2 (fun k => .nitro k) (fun k wk => rfl)⟩

/-- C3: depth exhaustion (event.py lines 475-481). A truncated query with
max_query_depth 0 splits no further and returns the rows already fetched;
the not_completed flag of the root (reached through _root_parent) ends true;
the warning is emitted only when the flag was still unset, and over any whole
run the flag only moves from unset to set and the warning is emitted at most
once, with no exception raised. -/
theorem c3_depth_exhaustion (server : QTimeRange → List Row)
    (resolve : String → ℚ × ℚ) (slots : Nat) (q : EventQuerySpec)
    (delta : Option ℚ) (flag : Bool)
    (htrunc : q.limit ≤ (server q.time_range).length) :
    load_data server resolve slots 0 q delta flag =
      .ok ⟨server q.time_range, true, if flag then 0 else 1, [q.time_range]⟩
  ∧ (∀ depth (q2 : EventQuerySpec) (delta2 : Option ℚ) (flag2 : Bool) (r : LoadResult),
      load_data server resolve slots depth q2 delta2 flag2 = .ok r →
      (flag2 = true → r.flag = true ∧ r.warnings = 0)
      ∧ r.warnings = (if flag2 = true then 0 else if r.flag = true then 1 else 0)
      ∧ r.warnings ≤ 1) := by
  constructor
  · exact load_data_zero_trunc_eq server resolve slots q delta flag htrunc
  · intro depth q2 delta2 flag2 r h
    have hinv := load_data_flag_inv server resolve slots depth q2 delta2 flag2 r h
    refine ⟨hinv.1, hinv.2, ?_⟩
    rw [hinv.2]
    split_ifs <;> omega

/-- Witness for c3_depth_exhaustion: a truncated query (500 rows at limit
500) with no remaining depth. -/
theorem c3_depth_exhaustion_witness :
    sampleSpec.limit ≤ (fullServer sampleSpec.time_range).length
  ∧ (load_data fullServer sampleResolve 10 0 sampleSpec none false =
      .ok ⟨fullServer sampleSpec.time_range, true, if false then 0 else 1,
        [sampleSpec.time_range]⟩
    ∧ (∀ depth (q2 : EventQuerySpec) (delta2 : Option ℚ) (flag2 : Bool) (r : LoadResult),
        load_data fullServer sampleResolve 10 depth q2 delta2 flag2 = .ok r →
        (flag2 = true → r.flag = true ∧ r.warnings = 0)
        ∧ r.warnings = (if flag2 = true then 0 else if r.flag = true then 1 else 0)
        ∧ r.warnings ≤ 1)) :=
  ⟨by simp [fullServer, sampleSpec],
    c3_depth_exhaustion fullServer sampleResolve 10 sampleSpec none false
      (by simp [fullServer, sampleSpec])⟩

/-- C4: conditional concurrency (event.py lines 457-470 and spec section 5).
Children are dispatched through the bounded worker pool only when the
invoking node is the root (asynch is _parent == None); every non-root
invocation runs sequentially in its own context, with at most one attempt in
flight; hence the number of simultaneously in-flight query attempts over a
whole decomposition run never exceeds the workers count, whatever
max_query_depth is. -/
theorem c4_concurrency_bound (server : QTimeRange → List Row)
    (resolve : String → ℚ × ℚ) (slots workers : Nat) (hw : 1 ≤ workers)
    (depth : Nat) (q : EventQuerySpec) (delta : Option ℚ) :
    (∀ (q2 : EventQuerySpec) (delta2 : Option ℚ), q2.hasParent = true →
      maxInFlight server resolve slots workers depth q2 delta2 = 1)
  ∧ maxInFlight server resolve slots workers depth q delta ≤ workers :=
  ⟨fun q2 delta2 hp => maxInFlight_nonroot server resolve slots workers depth q2 delta2 hp,
   maxInFlight_le server resolve slots workers hw depth q delta⟩

/-- Witness for c4_concurrency_bound at the default worker count 10. -/
theorem c4_concurrency_bound_witness :
    1 ≤ 10 ∧
    ((∀ (q2 : EventQuerySpec) (delta2 : Option ℚ), q2.hasParent = true →
        maxInFlight fullServer sampleResolve 10 10 2 q2 delta2 = 1)
      ∧ maxInFlight fullServer sampleResolve 10 10 2 sampleSpec none ≤ 10) :=
  ⟨by decide,
    c4_concurrency_bound fullServer sampleResolve 10 10 (by decide) 2 sampleSpec none⟩

theorem chooseDivision_false_some (dq s e : ℚ) (slots : Nat) :
    chooseDivision false (some dq) s e slots = divide_times_delta s e dq := rfl

theorem chooseDivision_true (delta : Option ℚ) (s e : ℚ) (slots : Nat) :
    chooseDivision true delta s e slots = divide_times_slots s e slots := by
  cases delta <;> rfl

theorem chooseDivision_none (hp : Bool) (s e : ℚ) (slots : Nat) :
    chooseDivision hp none s e slots = divide_times_slots s e slots := by
  cases hp <;> rfl

/-- C5: division mode selection (event.py lines 424-429). For a truncated
query with remaining depth, the window is partitioned by the fixed delta
duration exactly when the node is the root (no parent) and a delta was
supplied; in every other case (a parent exists or no delta) the window is
partitioned into slots sub-windows. In both cases the children are processed
without a delta of their own (the recursive dispatch of line 468 passes only
slots and the decremented depth). -/
theorem c5_delta_split_root_only (server : QTimeRange → List Row)
    (resolve : String → ℚ × ℚ) (slots depth : Nat) (q : EventQuerySpec)
    (delta : Option ℚ) (flag : Bool)
    (htrunc : q.limit ≤ (server q.time_range).length) :
    (∀ dq : ℚ, q.hasParent = false → delta = some dq →
      load_data server resolve slots (depth + 1) q delta flag =
        splitStep (fun sq fl => load_data server resolve slots depth sq none fl) q flag
          (divide_times_delta (resolvedWindow resolve q).1
            (resolvedWindow resolve q).2 dq))
  ∧ ((q.hasParent = true ∨ delta = none) →
      load_data server resolve slots (depth + 1) q delta flag =
        splitStep (fun sq fl => load_data server resolve slots depth sq none fl) q flag
          (divide_times_slots (resolvedWindow resolve q).1
            (resolvedWindow resolve q).2 slots)) := by
  constructor
  · intro dq hp hd
    rw [load_data_succ_trunc_eq server resolve slots depth q delta flag htrunc, hp, hd,
      chooseDivision_false_some]
  · intro h
    rw [load_data_succ_trunc_eq server resolve slots depth q delta flag htrunc]
    rcases h with hp | hd
    · rw [hp, chooseDivision_true]
    · rw [hd, chooseDivision_none]

/-- Witness for c5_delta_split_root_only: a truncated root query with a
delta of 30 is divided by delta. -/
theorem c5_delta_split_root_only_witness :
    (sampleSpec.limit ≤ (fullServer sampleSpec.time_range).length
      ∧ sampleSpec.hasParent = false ∧ (some (30:ℚ) = some 30))
  ∧ load_data fullServer sampleResolve 10 (0 + 1) sampleSpec (some 30) false =
      splitStep (fun sq fl => load_data fullServer sampleResolve 10 0 sq none fl)
        sampleSpec false
        (divide_times_delta (resolvedWindow sampleResolve sampleSpec).1
          (resolvedWindow sampleResolve sampleSpec).2 30) :=
  ⟨⟨by simp [fullServer, sampleSpec], rfl, rfl⟩,
    (c5_delta_split_root_only fullServer sampleResolve 10 0 sampleSpec (some 30) false
      (by simp [fullServer, sampleSpec])).1 30 rfl rfl⟩

/-- C6: child specifications (event.py lines 442-455 and 468). Every child
built when splitting a truncated window inherits the fields, order, limit
and filter tree of the parent, carries a concrete custom time window with
explicit bounds and a parent reference — so every specification with a
parent has a concrete window — and the children are processed with
max_query_depth equal to the parent depth minus one. -/
theorem c6_child_inherits (q : EventQuerySpec) (w : ℚ × ℚ) :
    (buildSubQuery q w).fields = q.fields
  ∧ (buildSubQuery q w).order = q.order
  ∧ (buildSubQuery q w).limit = q.limit
  ∧ (buildSubQuery q w).filters = q.filters
  ∧ (buildSubQuery q w).time_range = .custom w.1 w.2
  ∧ (buildSubQuery q w).hasParent = true
  ∧ (∃ s e : ℚ, (buildSubQuery q w).time_range = .custom s e)
  ∧ (∀ (server : QTimeRange → List Row) (resolve : String → ℚ × ℚ),
      ∀ slots depth : Nat, ∀ delta : Option ℚ, ∀ flag : Bool,
      q.limit ≤ (server q.time_range).length →
      load_data server resolve slots (depth + 1) q delta flag =
        splitStep
          (fun sq fl => load_data server resolve slots ((depth + 1) - 1) sq none fl)
          q flag
          (chooseDivision q.hasParent delta (resolvedWindow resolve q).1
            (resolvedWindow resolve q).2 slots)) := by
  refine ⟨rfl, rfl, rfl, rfl, rfl, rfl, ⟨w.1, w.2, rfl⟩, ?_⟩
  intro server resolve slots depth delta flag htrunc
  exact load_data_succ_trunc_eq server resolve slots depth q delta flag htrunc

/-- Witness for c6_child_inherits on a concrete parent and sub-window, with
the recursion hypothesis discharged on a truncated concrete run. -/
theorem c6_child_inherits_witness :
    ((buildSubQuery sampleSpec (0, 50)).fields = sampleSpec.fields
  ∧ (buildSubQuery sampleSpec (0, 50)).order = sampleSpec.order
  ∧ (buildSubQuery sampleSpec (0, 50)).limit = sampleSpec.limit
  ∧ (buildSubQuery sampleSpec (0, 50)).filters = sampleSpec.filters
  ∧ (buildSubQuery sampleSpec (0, 50)).time_range = .custom 0 50
  ∧ (buildSubQuery sampleSpec (0, 50)).hasParent = true
  ∧ (∃ s e : ℚ, (buildSubQuery sampleSpec (0, 50)).time_range = .custom s e))
  ∧ (sampleSpec.limit ≤ (fullServer sampleSpec.time_range).length
      ∧ load_data fullServer sampleResolve 10 (0 + 1) sampleSpec none false =
          splitStep
            (fun sq fl => load_data fullServer sampleResolve 10 ((0 + 1) - 1) sq none fl)
            sampleSpec false
            (chooseDivision sampleSpec.hasParent none
              (resolvedWindow sampleResolve sampleSpec).1
              (resolvedWindow sampleResolve sampleSpec).2 10)) := by
  have h := c6_child_inherits sampleSpec (0, 50)
  refine ⟨⟨h.1, h.2.1, h.2.2.1, h.2.2.2.1, h.2.2.2.2.1, h.2.2.2.2.2.1,
    h.2.2.2.2.2.2.1⟩, ⟨by simp [fullServer, sampleSpec], ?_⟩⟩
  exact h.2.2.2.2.2.2.2 fullServer sampleResolve 10 0 none false
    (by simp [fullServer, sampleSpec])

/-- C7: result merging (event.py lines 472-473). When a truncated window is
split and its sub-windows queried recursively, the merged result of the node
is the flattening of the per-child result lists in left-to-right window
order, and the merged row count equals the sum of the per-sub-window row
counts. -/
theorem c7_merge_flatten (server : QTimeRange → List Row)
    (resolve : String → ℚ × ℚ) (slots d : Nat) (q : EventQuerySpec)
    (delta : Option ℚ) (flag : Bool) (r : LoadResult)
    (htrunc : q.limit ≤ (server q.time_range).length)
    (h : load_data server resolve slots (d + 1) q delta flag = .ok r) :
    ∃ times acc,
      chooseDivision q.hasParent delta (resolvedWindow resolve q).1
        (resolvedWindow resolve q).2 slots = .ok times
      ∧ load_data_children (fun sq fl => load_data server resolve slots d sq none fl)
          (times.map (buildSubQuery q)) flag = .ok acc
      ∧ acc.resultsLists.length = times.length
      ∧ (∀ i, ∀ h1 : i < (times.map (buildSubQuery q)).length,
          ∀ h2 : i < acc.resultsLists.length,
          ∃ fl rr,
            load_data server resolve slots d ((times.map (buildSubQuery q))[i]) none fl
              = .ok rr
            ∧ acc.resultsLists[i] = rr.items)
      ∧ r.items = acc.resultsLists.flatten
      ∧ r.items.length = (acc.resultsLists.map List.length).sum := by
  rw [load_data_succ_trunc_eq server resolve slots d q delta flag htrunc] at h
  cases hdiv : chooseDivision q.hasParent delta (resolvedWindow resolve q).1
      (resolvedWindow resolve q).2 slots with
  | error e =>
    rw [hdiv] at h
    exact absurd h (by simp [splitStep])
  | ok times =>
    rw [hdiv] at h
    cases hch : load_data_children
        (fun sq fl => load_data server resolve slots d sq none fl)
        (times.map (buildSubQuery q)) flag with
    | error e =>
      simp only [splitStep] at h
      rw [hch] at h
      exact absurd h (by simp)
    | ok acc =>
      simp only [splitStep, hch] at h
      injection h with h2
      subst h2
      have hspec := load_data_children_spec
        (fun sq fl => load_data server resolve slots d sq none fl)
        (times.map (buildSubQuery q)) flag acc hch
      refine ⟨times, acc, rfl, hch, by simpa using hspec.1, hspec.2, rfl, ?_⟩
      show acc.resultsLists.flatten.length = (acc.resultsLists.map List.length).sum
      simp [List.length_flatten]

/-- Witness for c7_merge_flatten: a root with limit 1 truncated everywhere,
split in two sub-windows, each child contributing one row; the merged
result has the two rows in window order. -/
theorem c7_merge_flatten_witness :
    (rootSpec.limit ≤ (oneRowServer rootSpec.time_range).length
      ∧ load_data oneRowServer sampleResolve 2 (0 + 1) rootSpec none false =
          .ok ⟨[[], []], true, 1, [.custom 0 100, .custom 0 50, .custom 50 100]⟩)
  ∧ ∃ times acc,
      chooseDivision rootSpec.hasParent none (resolvedWindow sampleResolve rootSpec).1
        (resolvedWindow sampleResolve rootSpec).2 2 = .ok times
      ∧ load_data_children
          (fun sq fl => load_data oneRowServer sampleResolve 2 0 sq none fl)
          (times.map (buildSubQuery rootSpec)) false = .ok acc
      ∧ acc.resultsLists.length = times.length
      ∧ (∀ i, ∀ h1 : i < (times.map (buildSubQuery rootSpec)).length,
          ∀ h2 : i < acc.resultsLists.length,
          ∃ fl rr,
            load_data oneRowServer sampleResolve 2 0
              ((times.map (buildSubQuery rootSpec))[i]) none fl = .ok rr
            ∧ acc.resultsLists[i] = rr.items)
      ∧ (LoadResult.mk [[], []] true 1
          [.custom 0 100, .custom 0 50, .custom 50 100]).items
            = acc.resultsLists.flatten
      ∧ (LoadResult.mk [[], []] true 1
          [.custom 0 100, .custom 0 50, .custom 50 100]).items.length
            = (acc.resultsLists.map List.length).sum := by
  have hload : load_data oneRowServer sampleResolve 2 (0 + 1) rootSpec none false =
      .ok ⟨[[], []], true, 1, [.custom 0 100, .custom 0 50, .custom 50 100]⟩ := by
    norm_num [load_data, rootSpec, oneRowServer, sampleResolve, splitStep,
      chooseDivision, divide_times_slots, windowsFrom, load_data_children,
      buildSubQuery, resolvedWindow, finalizeNode]
  refine ⟨⟨by simp [oneRowServer, rootSpec], hload⟩, ?_⟩
  exact c7_merge_flatten oneRowServer sampleResolve 2 0 rootSpec none false
    ⟨[[], []], true, 1, [.custom 0 100, .custom 0 50, .custom 50 100]⟩
    (by simp [oneRowServer, rootSpec]) hload

/-- C10: the recursive retry call of _qry_load_data (event.py line 382)
passes only the decremented retry budget, so every attempt after the first
runs with the default wait timeout of 120 seconds even when the caller
supplied a different wait_timeout_sec: in any trace, attempt 0 carries the
caller-supplied timeout and every later attempt carries 120; and after a
first failure with remaining budget, a retried attempt with timeout 120
actually occurs. -/
theorem c10_retry_uses_default_wait (att : Nat → ℚ → Except QueryError (List Row))
    (limit r : Nat) (w : ℚ) :
    (∀ j, ∀ wa : ℚ, QryAction.attempt j wa ∈ (qry_load_data att limit r w).1 →
      (j = 0 → wa = w) ∧ (0 < j → wa = 120))
  ∧ (∀ e, att 0 w = .error e → 0 < r →
      QryAction.attempt 1 120 ∈ (qry_load_data att limit r w).1) := by
  constructor
  · intro j wa hmem
    rcases qry_go_attempt_mem att limit r 0 w wa j hmem with ⟨h1, h2⟩ | ⟨h1, h2⟩
    · constructor
      · intro _
        exact h2
      · intro hj
        exact absurd hj (by omega)
    · constructor
      · intro hj
        exact absurd h1 (by omega)
      · intro _
        exact h2
  · intro e he hr
    cases r with
    | zero => exact absurd hr (lt_irrefl 0)
    | succ r2 =>
      show QryAction.attempt 1 120 ∈ (qry_load_data_go att limit 0 (r2 + 1) w).1
      rw [qry_go_error_succ_eq att limit 0 r2 w e he]
      obtain ⟨t, ht⟩ := qry_go_head att limit 1 r2 120
      rw [ht]
      exact List.mem_cons_of_mem _ (List.mem_cons_of_mem _ (List.mem_cons_self _ _))

/-- Witness for c10_retry_uses_default_wait: a run with caller-supplied
timeout 60 and budget 1 whose first attempt fails performs its retried
attempt with the default timeout 120. -/
theorem c10_retry_uses_default_wait_witness :
    (failAtt 0 60 = .error (.nitro 0) ∧ 0 < 1)
  ∧ ((∀ j, ∀ wa : ℚ, QryAction.attempt j wa ∈ (qry_load_data failAtt 500 1 60).1 →
        (j = 0 → wa = 60) ∧ (0 < j → wa = 120))
      ∧ QryAction.attempt 1 120 ∈ (qry_load_data failAtt 500 1 60).1) :=
  ⟨⟨rfl, by decide⟩,
    ⟨(c10_retry_uses_default_wait failAtt 500 1 60).1,
     (c10_retry_uses_default_wait failAtt 500 1 60).2 (.nitro 0) rfl (by decide)⟩⟩

end Msiempy
